import Mathlib

/-!
Verification development for `pfr`, a personal finance reporter.

The Rust source (`src/main.rs`) is shallowly embedded:

* `Money`, `Transaction`, `Frequency`, `AddType` mirror the corresponding
  Rust types (`u64` amounts become `Nat`; overflow points are noted where
  they matter).
* A ledger file (a serialized JSON object) is a list of key/value entries;
  the in-memory `HashMap` built by deserialization is an association list
  obtained by folding inserts (later duplicate keys overwrite, as in
  `serde_json`).  The file store is a map from file name to file contents.
* The 32-bit float arithmetic used by the report's frequency extrapolation
  and the 64-bit float arithmetic used by `Money::from_str` are embedded
  exactly, as round-to-nearest-even over exact rationals represented by
  numerator/denominator pairs of naturals (IEEE-754 semantics of Rust's
  `f32`/`f64`).
-/

set_option maxRecDepth 16384

namespace Pfr

/-- `enum Frequency`: how often a transaction occurs. -/
inductive Frequency where
| daily
| workdays
| weekly
| monthly
| quarterly
| yearly
deriving DecidableEq

/-- `enum AddType`: the type of transaction. -/
inductive AddType where
| income
| expense
deriving DecidableEq

/-- `struct Money { cents: u64 }`. -/
structure Money where
cents : Nat
deriving DecidableEq

/-- `struct Transaction`. -/
structure Transaction where
add_type : AddType
freq : Frequency
name : String
amount : Money
category : Option String
account : Option String
deriving DecidableEq

/-! ## Decimal formatting (`u64::to_string` and `impl fmt::Display for Money`) -/

/-- The decimal digit character for `d < 10`. -/
def decDigit (d : Nat) : Char := Char.ofNat (48 + d)

/-- Fuel-driven decimal digit expansion (most significant first). -/
def natDecCharsAux : Nat → Nat → List Char
| 0, _ => []
| f + 1, n =>
  if n < 10 then [decDigit n]
  else natDecCharsAux f (n / 10) ++ [decDigit (n % 10)]

/-- The decimal representation of a natural number (`u64::to_string`). -/
def natDecChars (n : Nat) : List Char := natDecCharsAux (n + 1) n

/-- Left-pad a character list with `fill` up to width `w`
(Rust format specifiers such as `:>4` and `:0>2`). -/
def padTo (w : Nat) (fill : Char) (l : List Char) : List Char :=
List.replicate (w - l.length) fill ++ l

/-- `impl fmt::Display for Money`: dollars right-aligned to width 4 with
spaces, a dot, cents zero-padded to width 2. -/
def moneyFmtChars (c : Nat) : List Char :=
padTo 4 ' ' (natDecChars (c / 100)) ++ '.' :: padTo 2 '0' (natDecChars (c % 100))

/-- `Money::to_string`. -/
def moneyFmt (c : Nat) : String := String.mk (moneyFmtChars c)

/-! ## Binary floating point, embedded exactly

A finite nonnegative float is a pair `(s, e)` denoting the real number
`s * 2 ^ e`.  Rounding a positive rational `n / d` to a `prec`-bit
significand is IEEE-754 round-to-nearest, ties-to-even. -/

/-- Round `p / q` to the nearest integer, ties to even (`q > 0`). -/
def rne (p q : Nat) : Nat :=
let d := p / q
let r := p % q
if 2 * r < q then d
else if q < 2 * r then d + 1
else if d % 2 = 0 then d else d + 1

/-- Fuel-driven floor of the base-2 logarithm. -/
def log2Aux : Nat → Nat → Nat
| 0, _ => 0
| f + 1, n => if n ≤ 1 then 0 else log2Aux f (n / 2) + 1

/-- `log2N n` is the floor of the base-2 logarithm of `n` (for `n ≥ 1`). -/
def log2N (n : Nat) : Nat := log2Aux n n

/-- The floor of the base-2 logarithm of `n / d` (for `n, d ≥ 1`),
as an integer. -/
def flog2 (n d : Nat) : Int :=
let a := log2N n
let b := log2N d
if d * 2 ^ a ≤ n * 2 ^ b then (a : Int) - b else (a : Int) - b - 1

/-- Round the positive rational `n / d` to a `prec`-bit significand,
round-to-nearest, ties-to-even: the result `(s, e)` satisfies
`2 ^ (prec - 1) ≤ s ≤ 2 ^ prec` and represents `s * 2 ^ e`. -/
def roundSig (prec n d : Nat) : Nat × Int :=
let k := flog2 n d
let t : Int := (prec : Int) - 1 - k
let s := if 0 ≤ t then rne (n * 2 ^ t.toNat) d else rne n (d * 2 ^ (-t).toNat)
(s, k - ((prec : Int) - 1))

/-- The rational `n / d` as an `f32` value (nonnegative; our uses never
overflow `f32` nor reach subnormals, see `monthlyCents`). -/
def f32round (n d : Nat) : Nat × Int :=
if n = 0 then (0, 0) else roundSig 24 n d

/-- IEEE-754 `f32` multiplication on nonnegative values: the exact product
re-rounded to 24 significand bits. -/
def f32mul (x y : Nat × Int) : Nat × Int :=
if x.1 = 0 || y.1 = 0 then (0, 0)
else
  let p := roundSig 24 (x.1 * y.1) 1
  (p.1, p.2 + x.2 + y.2)

/-- Truncation toward zero of the nonnegative float `(s, e)`. -/
def floorPair (x : Nat × Int) : Nat :=
if 0 ≤ x.2 then x.1 * 2 ^ x.2.toNat else x.1 / 2 ^ (-x.2).toNat

/-- The `f32` multiplier of each frequency, from `report`:
the literals `30.0`, `4.28`, `21.4`, `1.0` and the `f32` quotients
`1.0 / 3.0` and `1.0 / 12.0` (correctly rounded division). -/
def multiplierF32 : Frequency → Nat × Int
| .daily => f32round 30 1
| .weekly => f32round 428 100
| .workdays => f32round 214 10
| .monthly => f32round 1 1
| .quarterly => f32round 1 3
| .yearly => f32round 1 12

/-- `Money { cents: (multiplier * transaction.amount.cents as f32) as u64 }`
from `report`: the amount is converted to `f32` (round to nearest), the
product is computed in `f32`, and the result truncated toward zero
(the `as u64` cast saturates at `u64::MAX`). -/
def monthlyCents (fr : Frequency) (cents : Nat) : Nat :=
min (floorPair (f32mul (multiplierF32 fr) (f32round cents 1))) (2 ^ 64 - 1)

/-- The monthly-equivalent amount of a transaction. -/
def monthlyT (t : Transaction) : Nat := monthlyCents t.freq t.amount.cents

/-! ## The ledger and its persistence

`type Ledger = HashMap<String, Transaction>` is embedded as an association
list with unique keys; a serialized ledger file (a JSON object) is the
list of its entries, and deserialization folds the entries into a fresh
map, later duplicates overwriting (as `serde_json` does).  The file store
`~/.pfr/` is a map from file name to the entries stored in that file;
I/O failures other than a missing file (and hence JSON decode failures,
since the store holds structured entries) are below this model. -/

/-- A ledger / a decoded ledger file: entries of a string-keyed map. -/
abbrev Entries := List (String × Transaction)

/-- `HashMap::get`: the value stored under key `k`. -/
def lookupL : Entries → String → Option Transaction
| [], _ => none
| p :: l, k => if p.1 = k then some p.2 else lookupL l k

/-- `HashMap::insert`: replace the entry with key `k`, or append one. -/
def insertL : Entries → String → Transaction → Entries
| [], k, t => [(k, t)]
| p :: l, k, t => if p.1 = k then (k, t) :: l else p :: insertL l k t

/-- `HashMap::remove` (the removed value is discarded by `rm`). -/
def removeL : Entries → String → Entries
| [], _ => []
| p :: l, k => if p.1 = k then removeL l k else p :: removeL l k

/-- The keys of the entry list are pairwise distinct
(the `HashMap` invariant; every stored ledger file satisfies it). -/
def NodupKeys (l : Entries) : Prop := (l.map Prod.fst).Nodup

instance (l : Entries) : Decidable (NodupKeys l) := by
unfold NodupKeys
infer_instance

/-- `serde_json::from_reader` on a ledger file: fold the serialized
entries into a fresh map; a later entry with a duplicate key overwrites
the earlier one. -/
def loadEntries (l : Entries) : Entries :=
l.foldl (fun m p => insertL m p.1 p.2) []

/-- The file store: contents of `~/.pfr/` by file name. -/
def Files := String → Option Entries

/-- Writing a file (create-or-truncate). -/
def updateF (fs : Files) (name : String) (l : Entries) : Files :=
fun m => if m = name then some l else fs m

/-- `enum Error`. -/
inductive Error where
| WhileAttemptingToOpenDataFile
| DuringInitialisation
| DuringSerialisation
| DuringDeSerialisation
| CouldNotFindHomeDirectory
| NameIsAlreadyTaken (s : String)
deriving DecidableEq

/-- `save_ledger`: serialize `ledger` into the file called `name`
(create-or-truncate); in this model serialization does not fail. -/
def save_ledger (fs : Files) (name : String) (ledger : Entries) : Except Error Files :=
Except.ok (updateF fs name ledger)

/-- `load_ledger`: read and deserialize the file called `name`. -/
def load_ledger (fs : Files) (name : String) : Except Error Entries :=
match fs name with
| none => Except.error Error.WhileAttemptingToOpenDataFile
| some l => Except.ok (loadEntries l)

/-- The reserved file name of the current ledger. -/
def currentName : String := ".current_data"

/-- The reserved file name of the backup ledger. -/
def backupName : String := ".current_backup"

/-- `fn add`: `ledger.insert(ac.name.clone(), ac)` returns the displaced
value when the name is taken; the code then re-inserts the displaced
value (restoring the in-memory map) and returns
`NameIsAlreadyTaken(val.name)` without saving, so the store is untouched;
otherwise it saves the extended ledger. -/
def add (fs : Files) (ac : Transaction) : Except Error Files :=
match load_ledger fs currentName with
| Except.error e => Except.error e
| Except.ok ledger =>
  match lookupL ledger ac.name with
  | some val => Except.error (Error.NameIsAlreadyTaken val.name)
  | none => save_ledger fs currentName (insertL ledger ac.name ac)

/-- `fn rm`: remove the name (present or not) and save. -/
def rm (fs : Files) (name : String) : Except Error Files :=
match load_ledger fs currentName with
| Except.error e => Except.error e
| Except.ok ledger => save_ledger fs currentName (removeL ledger name)

/-- `fn save`: copy the current ledger to the file called `name`. -/
def save (fs : Files) (name : String) : Except Error Files :=
match load_ledger fs currentName with
| Except.error e => Except.error e
| Except.ok ledger => save_ledger fs name ledger

/-- `fn load`: copy the file called `name` over the current ledger. -/
def load (fs : Files) (name : String) : Except Error Files :=
match load_ledger fs name with
| Except.error e => Except.error e
| Except.ok ledger => save_ledger fs currentName ledger

/-- `fn backup`. -/
def backup (fs : Files) : Except Error Files := save fs backupName

/-- `fn restore`. -/
def restore (fs : Files) : Except Error Files := load fs backupName

/-- The store after running a command: unchanged when the command
reported an error (every failing path returns before any write). -/
def execCmd (fs : Files) (r : Except Error Files) : Files :=
match r with
| Except.ok fs2 => fs2
| Except.error _ => fs

/-! ## The report engine (`fn report`) -/

/-- The accumulators of `report`: the signed running total (`i64`), the
category breakdown map, the uncategorized-expenses scalar, the coverage
map and the unallocated scalar.  The `u64` map/scalar accumulators are
modelled as `Nat` and the `i64` total as `Int`; accumulator overflow
(a panic under the debug profile) is outside the model. -/
structure ReportAcc where
total : Int
breakdown : List (String × Nat)
other_expenses : Nat
coverage : List (String × Nat)
other_alloc : Nat
deriving DecidableEq

/-- `map.entry(s).or_insert(0) += m`: add `m` to the entry of key `k`,
inserting it first when absent. -/
def addTo : List (String × Nat) → String → Nat → List (String × Nat)
| [], k, v => [(k, v)]
| p :: l, k, v => if p.1 = k then (p.1, p.2 + v) :: l else p :: addTo l k v

/-- Lookup in a `String → u64` accumulator map, defaulting to 0. -/
def lookupD : List (String × Nat) → String → Nat
| [], _ => 0
| p :: l, k => if p.1 = k then p.2 else lookupD l k

/-- `money.cents as i64`: the `u64 → i64` cast reinterprets the bits, so
values of `2^63` and above become negative. -/
def toI64 (n : Nat) : Int := if n < 2 ^ 63 then (n : Int) else (n : Int) - 2 ^ 64

/-- One iteration of the `report` loop on transaction `t`. -/
def stepReport (acc : ReportAcc) (t : Transaction) : ReportAcc :=
let m := monthlyT t
match t.add_type with
| AddType.income => { acc with total := acc.total + toI64 m }
| AddType.expense =>
  let acc1 := { acc with total := acc.total - toI64 m }
  let acc2 :=
    match t.category with
    | some s => { acc1 with breakdown := addTo acc1.breakdown s m }
    | none => { acc1 with other_expenses := acc1.other_expenses + m }
  match t.account with
  | some s => { acc2 with coverage := addTo acc2.coverage s m }
  | none => { acc2 with other_alloc := acc2.other_alloc + m }

/-- The initial accumulators of `report`. -/
def initReport : ReportAcc := ⟨0, [], 0, [], 0⟩

/-- The accumulators of `report` after folding over the ledger's
transactions (in the ledger's unspecified iteration order). -/
def reportAcc (ts : List Transaction) : ReportAcc := ts.foldl stepReport initReport

/-- The `TOTAL:` row value of the report: `format!(" {} ", ..)` of the
total when it is positive, `format!("({})", ..)` of the negated total
otherwise (so a total of zero is also parenthesized). -/
def totalRowChars (total : Int) : List Char :=
if 0 < total then ' ' :: (moneyFmtChars total.toNat ++ [' '])
else '(' :: (moneyFmtChars (-total).toNat ++ [')'])

/-! ## 64-bit floats and `Money::from_str`

`Money::from_str` delegates to `f64::from_str` and computes
`(float * 100.0) as u64`.  `f64` values are embedded exactly: a parsed
finite value is the correctly rounded (round-to-nearest, ties-to-even,
with overflow to infinity and gradual underflow to subnormals) image of
the exact decimal rational denoted by the input. -/

/-- The magnitude of an `f64`: zero, infinity, or a finite value
`s * 2 ^ e` (normal or subnormal). -/
inductive F64mag where
| zero
| inf
| fin (s : Nat) (e : Int)
deriving DecidableEq

/-- An `f64` relevant to parsing: NaN or a signed magnitude. -/
inductive F64 where
| nan
| val (neg : Bool) (mag : F64mag)
deriving DecidableEq

/-- Whether `s * 2 ^ e ≥ 2 ^ m`. -/
def geTwoPow (s : Nat) (e : Int) (m : Nat) : Bool :=
if 0 ≤ e then decide (2 ^ m ≤ s * 2 ^ e.toNat) else decide (2 ^ (m + (-e).toNat) ≤ s)

/-- Round the exact nonnegative rational `n / d` to an `f64` magnitude:
round-to-nearest ties-to-even with a 53-bit significand, overflowing to
infinity at `2 ^ 1024` and rounding in fixed point (granularity
`2 ^ -1074`) below the normal range. -/
def f64round (n d : Nat) : F64mag :=
if n = 0 then F64mag.zero
else if n * 2 ^ 1022 < d then
  let s := rne (n * 2 ^ 1074) d
  if s = 0 then F64mag.zero else F64mag.fin s (-1074)
else
  let p := roundSig 53 n d
  if geTwoPow p.1 p.2 1024 then F64mag.inf else F64mag.fin p.1 p.2

/-- `float * 100.0` in `f64` (the second operand is exact). -/
def f64mul100 : F64 → F64
| F64.nan => F64.nan
| F64.val b F64mag.zero => F64.val b F64mag.zero
| F64.val b F64mag.inf => F64.val b F64mag.inf
| F64.val b (F64mag.fin s e) =>
  F64.val b (if 0 ≤ e then f64round (s * 100 * 2 ^ e.toNat) 1 else f64round (s * 100) (2 ^ (-e).toNat))

/-- The Rust `as u64` cast of an `f64`: truncation toward zero,
saturating at the bounds; NaN casts to 0 and negative values saturate
to 0. -/
def f64ToU64 : F64 → Nat
| F64.nan => 0
| F64.val true _ => 0
| F64.val false F64mag.zero => 0
| F64.val false F64mag.inf => 2 ^ 64 - 1
| F64.val false (F64mag.fin s e) =>
  min (if 0 ≤ e then s * 2 ^ e.toNat else s / 2 ^ (-e).toNat) (2 ^ 64 - 1)

/-- Strip a leading sign, returning whether it was `-` and the rest. -/
def stripSign (l : List Char) : Bool × List Char :=
match l with
| [] => (false, [])
| c :: r => if c = '+' then (false, r) else if c = '-' then (true, r) else (false, l)

/-- Lower-case an ASCII letter. -/
def charLower (c : Char) : Char :=
if 'A' ≤ c ∧ c ≤ 'Z' then Char.ofNat (c.toNat + 32) else c

/-- The numeric value of a string of decimal digit characters. -/
def digitsToNat (l : List Char) : Nat :=
l.foldl (fun a c => 10 * a + (c.toNat - 48)) 0

/-- Parse the exponent part of a float literal: empty (no exponent) or
`e`/`E`, an optional sign, and at least one digit. -/
def parseExp : List Char → Option Int
| [] => some 0
| _ :: r =>
  let p := stripSign r
  if p.2 ≠ [] ∧ p.2.all Char.isDigit then
    some (if p.1 then -(digitsToNat p.2 : Int) else (digitsToNat p.2 : Int))
  else none

/-- `f64::from_str` (Rust's documented grammar: an optional sign, then
case-insensitive `inf`/`infinity`/`nan` or a mantissa with at least one
digit and an optional exponent; the finite result is the exact decimal
value correctly rounded to `f64`). -/
def parseF64 (str : String) : Option F64 :=
let sb := stripSign str.toList
let neg := sb.1
let body := sb.2
let low := body.map charLower
if low = "inf".toList ∨ low = "infinity".toList then some (F64.val neg F64mag.inf)
else if low = "nan".toList then some F64.nan
else
  let mant := body.takeWhile (fun c => !(c == 'e' || c == 'E'))
  let erest := body.drop mant.length
  let ip := mant.takeWhile (fun c => !(c == '.'))
  let fprest := mant.drop ip.length
  let frac := match fprest with
    | [] => ([] : List Char)
    | _ :: f => f
  if ip.all Char.isDigit ∧ frac.all Char.isDigit ∧ (ip ≠ [] ∨ frac ≠ []) then
    match parseExp erest with
    | none => none
    | some e =>
      let N := digitsToNat (ip ++ frac)
      let ex : Int := e - frac.length
      if N = 0 then some (F64.val neg F64mag.zero)
      else if 0 ≤ ex then some (F64.val neg (f64round (N * 10 ^ ex.toNat) 1))
      else some (F64.val neg (f64round N (10 ^ (-ex).toNat)))
  else none

/-- `Money::from_str`: parse as `f64`, multiply by `100.0`, cast to
`u64`; `None` models the `ParseFloatError` path. -/
def moneyFromStr (str : String) : Option Nat :=
(parseF64 str).map (fun f => f64ToU64 (f64mul100 f))

/-- Numeric strings, spelled out from the float grammar the spec appeals
to ("fails with ParseError on non-numeric input"): an optional sign
followed by case-insensitive `inf`/`infinity`/`nan`, or by a mantissa
holding at least one digit with an optional `e`/`E` exponent.  This is a
second, independent rendering of the grammar used to state the
refinement half of the parsing claim. -/
def numericStr (str : String) : Bool :=
let body := (stripSign str.toList).2
let low := body.map charLower
(low == "inf".toList) || (low == "infinity".toList) || (low == "nan".toList) ||
  (let mant := body.takeWhile (fun c => !(c == 'e' || c == 'E'))
   let erest := body.drop mant.length
   let ip := mant.takeWhile (fun c => !(c == '.'))
   let frac := (mant.drop ip.length).drop 1
   let mantOk := ip.all Char.isDigit && frac.all Char.isDigit && (!ip.isEmpty || !frac.isEmpty)
   let expOk := match erest with
     | [] => true
     | _ :: r =>
       let digs := (stripSign r).2
       !digs.isEmpty && digs.all Char.isDigit
   mantOk && expOk)


/-- A sample income transaction, used by concrete witnesses. -/
def tSalary : Transaction :=
⟨AddType.income, Frequency.monthly, "salary", ⟨100000⟩, none, none⟩

/-- A sample expense transaction, used by concrete witnesses. -/
def tRent : Transaction :=
⟨AddType.expense, Frequency.monthly, "rent", ⟨50000⟩, some "housing", some "checking"⟩

/-- A second transaction named `rent`, used to exercise duplicate adds. -/
def tRent2 : Transaction :=
⟨AddType.expense, Frequency.weekly, "rent", ⟨60000⟩, none, none⟩

/-- A sample two-entry ledger file. -/
def sampleLedger : Entries := [("salary", tSalary), ("rent", tRent)]

/-- A store whose current ledger file holds `sampleLedger`. -/
def sampleFs : Files :=
fun n => if n = ".current_data" then some sampleLedger else none

/-- The empty store. -/
def emptyFs : Files := fun _ => none

/-! ## Association-map lemmas -/

theorem lookupL_insertL (l : Entries) (k : String) (t : Transaction) (k2 : String) :
    lookupL (insertL l k t) k2 = if k2 = k then some t else lookupL l k2 := by
induction l with
| nil => by_cases h : k2 = k <;> simp [insertL, lookupL, h, Ne.symm]
| cons p l ih =>
  by_cases hp : p.1 = k
  · by_cases h : k2 = k <;> simp [insertL, lookupL, hp, h, Ne.symm]
  · by_cases h : p.1 = k2
    · have : ¬ k2 = k := fun hh => hp (h.trans hh)
      simp [insertL, lookupL, hp, h, this]
    · simp [insertL, lookupL, hp, h, ih]

theorem mem_keys_insertL (l : Entries) (k : String) (t : Transaction) (a : String) :
    a ∈ (insertL l k t).map Prod.fst ↔ a = k ∨ a ∈ l.map Prod.fst := by
induction l with
| nil => simp [insertL]
| cons p l ih =>
  by_cases hp : p.1 = k
  · subst hp
    simp [insertL]
  · simp only [insertL, if_neg hp, List.map_cons, List.mem_cons, ih]
    tauto

theorem nodupKeys_insertL (l : Entries) (k : String) (t : Transaction)
    (h : NodupKeys l) : NodupKeys (insertL l k t) := by
induction l with
| nil => simp [NodupKeys, insertL]
| cons p l ih =>
  unfold NodupKeys at h
  rw [List.map_cons, List.nodup_cons] at h
  by_cases hp : p.1 = k
  · unfold NodupKeys
    simp only [insertL]
    rw [if_pos hp, List.map_cons, List.nodup_cons]
    exact ⟨hp ▸ h.1, h.2⟩
  · have h1 := ih h.2
    unfold NodupKeys at h1 ⊢
    simp only [insertL]
    rw [if_neg hp, List.map_cons, List.nodup_cons]
    exact ⟨fun hm => ((mem_keys_insertL l k t p.1).mp hm).elim hp h.1, h1⟩

theorem lookupL_eq_none_iff (l : Entries) (k : String) :
    lookupL l k = none ↔ k ∉ l.map Prod.fst := by
induction l with
| nil => simp [lookupL]
| cons p l ih =>
  by_cases hp : p.1 = k
  · simp [lookupL, hp]
  · have hp2 : ¬ k = p.1 := fun hh => hp hh.symm
    simp [lookupL, hp, hp2, ih]

theorem lookupL_eq_some_of_mem (l : Entries) (k : String) (v : Transaction)
    (h : NodupKeys l) (hm : (k, v) ∈ l) : lookupL l k = some v := by
induction l with
| nil => simp at hm
| cons p l ih =>
  simp only [NodupKeys, List.map_cons, List.nodup_cons] at h
  rcases List.mem_cons.mp hm with he | hm2
  · subst he
    simp [lookupL]
  · have hk : k ∈ l.map Prod.fst := List.mem_map.mpr ⟨(k, v), hm2, rfl⟩
    have hp : ¬ p.1 = k := fun hh => h.1 (hh ▸ hk)
    simp [lookupL, hp, ih h.2 hm2]

theorem mem_of_lookupL_eq_some (l : Entries) (k : String) (v : Transaction)
    (h : lookupL l k = some v) : (k, v) ∈ l := by
induction l with
| nil => simp [lookupL] at h
| cons p l ih =>
  by_cases hp : p.1 = k
  · simp only [lookupL, if_pos hp, Option.some.injEq] at h
    rw [List.mem_cons]
    left
    obtain ⟨a, b⟩ := p
    simp only at hp h
    rw [hp, h]
  · simp only [lookupL, if_neg hp] at h
    exact List.mem_cons_of_mem _ (ih h)

theorem lookupL_perm (l l2 : Entries) (h : NodupKeys l) (hp : l.Perm l2)
    (k : String) : lookupL l k = lookupL l2 k := by
have h2 : NodupKeys l2 := ((hp.map Prod.fst).nodup_iff).mp h
cases hv : lookupL l k with
| none =>
  have := (lookupL_eq_none_iff l k).mp hv
  have : k ∉ l2.map Prod.fst := fun hm => this ((hp.map Prod.fst).mem_iff.mpr hm)
  exact ((lookupL_eq_none_iff l2 k).mpr this).symm
| some v =>
  have hm : (k, v) ∈ l2 := hp.mem_iff.mp (mem_of_lookupL_eq_some l k v hv)
  exact (lookupL_eq_some_of_mem l2 k v h2 hm).symm

/-- First-result choice, for describing lookups in concatenations. -/
def lookFirst (a b : Option Transaction) : Option Transaction :=
match a with
| some v => some v
| none => b

theorem lookupL_append (a b : Entries) (k : String) :
    lookupL (a ++ b) k = lookFirst (lookupL a k) (lookupL b k) := by
induction a with
| nil => simp [lookupL, lookFirst]
| cons p a ih =>
  by_cases hp : p.1 = k <;> simp [lookupL, hp, ih, lookFirst]

theorem lookupL_foldl (l m : Entries) (k : String) :
    lookupL (l.foldl (fun m2 p => insertL m2 p.1 p.2) m) k =
      lookFirst (lookupL l.reverse k) (lookupL m k) := by
induction l generalizing m with
| nil => simp [lookupL, lookFirst]
| cons p l ih =>
  rw [List.foldl_cons, ih, List.reverse_cons, lookupL_append]
  rcases hv : lookupL l.reverse k with _ | v
  · by_cases hk : k = p.1
    · simp [lookFirst, lookupL, lookupL_insertL, hk]
    · have : ¬ p.1 = k := fun hh => hk hh.symm
      simp [lookFirst, lookupL, lookupL_insertL, hk, this]
  · simp [lookFirst]

theorem nodupKeys_reverse (l : Entries) (h : NodupKeys l) : NodupKeys l.reverse := by
unfold NodupKeys at h ⊢
rw [List.map_reverse]
exact List.nodup_reverse.mpr h

theorem lookupL_reverse (l : Entries) (h : NodupKeys l) (k : String) :
    lookupL l.reverse k = lookupL l k := by
have h2 := nodupKeys_reverse l h
cases hv : lookupL l k with
| none =>
  have := (lookupL_eq_none_iff l k).mp hv
  have hm : k ∉ l.reverse.map Prod.fst := by
    rw [List.map_reverse]
    simpa using this
  exact (lookupL_eq_none_iff l.reverse k).mpr hm
| some v =>
  exact lookupL_eq_some_of_mem l.reverse k v h2
    (List.mem_reverse.mpr (mem_of_lookupL_eq_some l k v hv))

theorem lookupL_loadEntries (l : Entries) (h : NodupKeys l) (k : String) :
    lookupL (loadEntries l) k = lookupL l k := by
unfold loadEntries
rw [lookupL_foldl, lookupL_reverse l h]
cases lookupL l k <;> simp [lookupL, lookFirst]

theorem nodupKeys_foldl_insertL (l m : Entries) (h : NodupKeys m) :
    NodupKeys (l.foldl (fun m2 p => insertL m2 p.1 p.2) m) := by
induction l generalizing m with
| nil => exact h
| cons p l ih => exact ih _ (nodupKeys_insertL m p.1 p.2 h)

theorem nodupKeys_loadEntries (l : Entries) : NodupKeys (loadEntries l) :=
nodupKeys_foldl_insertL l [] (by simp [NodupKeys])

theorem insertL_eq_append (m : Entries) (k : String) (t : Transaction)
    (h : lookupL m k = none) : insertL m k t = m ++ [(k, t)] := by
induction m with
| nil => simp [insertL]
| cons p m ih =>
  by_cases hp : p.1 = k
  · simp [lookupL, hp] at h
  · simp only [lookupL, if_neg hp] at h
    simp [insertL, hp, ih h]

theorem foldl_insertL_eq_append (l : Entries) :
    ∀ m : Entries, NodupKeys l → (∀ a ∈ l.map Prod.fst, lookupL m a = none) →
      l.foldl (fun m2 p => insertL m2 p.1 p.2) m = m ++ l := by
induction l with
| nil =>
  intro m _ _
  simp
| cons p l ih =>
  intro m h hdisj
  unfold NodupKeys at h
  rw [List.map_cons, List.nodup_cons] at h
  have hstep : insertL m p.1 p.2 = m ++ [p] := by
    rw [insertL_eq_append m p.1 p.2 (hdisj p.1 (by simp))]
  have hdisj2 : ∀ a ∈ l.map Prod.fst, lookupL (m ++ [p]) a = none := by
    intro a ha
    rw [lookupL_append]
    have h1 : lookupL m a = none := hdisj a (by simp [ha])
    have h2 : ¬ p.1 = a := fun hh => h.1 (hh ▸ ha)
    simp [lookFirst, h1, lookupL, h2]
  rw [List.foldl_cons, hstep, ih (m ++ [p]) h.2 hdisj2, List.append_assoc]
  simp

theorem loadEntries_id (l : Entries) (h : NodupKeys l) : loadEntries l = l := by
unfold loadEntries
rw [foldl_insertL_eq_append l [] h (fun a _ => rfl)]
simp

theorem lookupL_removeL (l : Entries) (k k2 : String) :
    lookupL (removeL l k) k2 = if k2 = k then none else lookupL l k2 := by
induction l with
| nil => simp [removeL, lookupL]
| cons p l ih =>
  by_cases hp : p.1 = k
  · simp only [removeL]
    rw [if_pos hp, ih]
    by_cases h2 : k2 = k
    · simp [h2]
    · have hp2 : ¬ p.1 = k2 := fun hh => h2 (hh ▸ hp)
      simp [lookupL, h2, hp2]
  · simp only [removeL]
    rw [if_neg hp]
    by_cases h2 : p.1 = k2
    · have h3 : ¬ k2 = k := fun hh => hp (h2.trans hh)
      simp [lookupL, h2, h3]
    · simp [lookupL, h2, ih]

theorem mem_removeL (l : Entries) (k : String) (q : String × Transaction)
    (h : q ∈ removeL l k) : q ∈ l := by
induction l with
| nil => simp [removeL] at h
| cons p l ih =>
  by_cases hp : p.1 = k
  · simp only [removeL] at h
    rw [if_pos hp] at h
    exact List.mem_cons_of_mem _ (ih h)
  · simp only [removeL] at h
    rw [if_neg hp, List.mem_cons] at h
    rcases h with h | h
    · simp [h]
    · exact List.mem_cons_of_mem _ (ih h)

theorem nodupKeys_removeL (l : Entries) (k : String) (h : NodupKeys l) :
    NodupKeys (removeL l k) := by
induction l with
| nil => simpa [removeL] using h
| cons p l ih =>
  unfold NodupKeys at h
  rw [List.map_cons, List.nodup_cons] at h
  by_cases hp : p.1 = k
  · simp only [removeL]
    rw [if_pos hp]
    exact ih h.2
  · have h1 := ih h.2
    unfold NodupKeys at h1 ⊢
    simp only [removeL]
    rw [if_neg hp, List.map_cons, List.nodup_cons]
    refine ⟨fun hm => ?_, h1⟩
    rcases List.mem_map.mp hm with ⟨q, hq, hqe⟩
    exact h.1 (hqe ▸ List.mem_map.mpr ⟨q, mem_removeL l k q hq, rfl⟩)

theorem removeL_removeL (l : Entries) (k : String) :
    removeL (removeL l k) k = removeL l k := by
induction l with
| nil => simp [removeL]
| cons p l ih =>
  by_cases hp : p.1 = k <;> simp [removeL, hp, ih]

theorem updateF_updateF (fs : Files) (n : String) (a b : Entries) :
    updateF (updateF fs n a) n b = updateF fs n b := by
funext m
by_cases h : m = n <;> simp [updateF, h]

/-! ## Rounding lemmas -/

theorem rne_one (p : Nat) : rne p 1 = p := by
unfold rne
simp [Nat.mod_one, Nat.div_one]

theorem rne_mul_pow (p t : Nat) : rne (p * 2 ^ t) (2 ^ t) = p := by
have hb : 0 < 2 ^ t := Nat.pow_pos (by norm_num)
unfold rne
rw [Nat.mul_mod_left, Nat.mul_div_cancel p hb]
simp [hb]

theorem log2Aux_spec : ∀ f n : Nat, 1 ≤ n → n ≤ f →
    2 ^ log2Aux f n ≤ n ∧ n < 2 ^ (log2Aux f n + 1) := by
intro f
induction f with
| zero =>
  intro n h1 h2
  omega
| succ f ih =>
  intro n h1 h2
  by_cases hn : n ≤ 1
  · have he : n = 1 := by omega
    subst he
    simp [log2Aux]
  · have hrec := ih (n / 2) (by omega) (by omega)
    simp only [log2Aux, if_neg hn]
    rw [pow_succ, pow_succ]
    rw [pow_succ] at hrec
    omega

theorem log2N_spec (n : Nat) (h : 1 ≤ n) :
    2 ^ log2N n ≤ n ∧ n < 2 ^ (log2N n + 1) :=
log2Aux_spec n n h le_rfl

theorem log2N_eq (k n : Nat) (h1 : 2 ^ k ≤ n) (h2 : n < 2 ^ (k + 1)) :
    log2N n = k := by
have hpos : 1 ≤ n := le_trans Nat.one_le_two_pow h1
have hs := log2N_spec n hpos
rcases lt_trichotomy (log2N n) k with h | h | h
· have : 2 ^ (log2N n + 1) ≤ 2 ^ k := Nat.pow_le_pow_right (by norm_num) (by omega)
  omega
· exact h
· have : 2 ^ (k + 1) ≤ 2 ^ log2N n := Nat.pow_le_pow_right (by norm_num) (by omega)
  omega

theorem flog2_nat (n : Nat) (h : 1 ≤ n) : flog2 n 1 = (log2N n : Int) := by
have h1 : log2N 1 = 0 := rfl
have h2 := (log2N_spec n h).1
simp only [flog2, h1]
rw [if_pos (by simpa using h2)]
simp

theorem monthlyCents_monthly (c : Nat) (h : c < 2 ^ 24) :
    monthlyCents Frequency.monthly c = c := by
rcases Nat.eq_zero_or_pos c with rfl | hc
· decide
· have hs := log2N_spec c hc
  have hK23 : log2N c ≤ 23 := by
    by_contra hcon
    have : 2 ^ 24 ≤ 2 ^ log2N c := Nat.pow_le_pow_right (by norm_num) (by omega)
    omega
  set K := log2N c with hKdef
  have hmul : multiplierF32 Frequency.monthly = (2 ^ 23, (-23 : Int)) := by decide
  have hfc : f32round c 1 = (c * 2 ^ (23 - K), (K : Int) - 23) := by
    unfold f32round
    rw [if_neg (by omega)]
    unfold roundSig
    dsimp only
    rw [flog2_nat c hc, ← hKdef]
    have ht : (0 : Int) ≤ ((24 : Nat) : Int) - 1 - (K : Int) := by
      omega
    rw [if_pos ht]
    have htn : (((24 : Nat) : Int) - 1 - (K : Int)).toNat = 23 - K := by
      omega
    rw [htn, rne_one]
    simp only [Prod.mk.injEq, true_and]
    omega
  have hcpow : 0 < c * 2 ^ (23 - K) := by
    have : 0 < 2 ^ (23 - K) := Nat.pow_pos (by norm_num)
    positivity
  have hn46 : 2 ^ 23 * (c * 2 ^ (23 - K)) = c * 2 ^ (46 - K) := by
    have he : 23 + (23 - K) = 46 - K := by omega
    calc 2 ^ 23 * (c * 2 ^ (23 - K)) = c * (2 ^ 23 * 2 ^ (23 - K)) := by ring
    _ = c * 2 ^ (23 + (23 - K)) := by rw [pow_add]
    _ = c * 2 ^ (46 - K) := by rw [he]
  have hlog46 : log2N (c * 2 ^ (46 - K)) = 46 := by
    apply log2N_eq
    · calc 2 ^ 46 = 2 ^ K * 2 ^ (46 - K) := by
            rw [← pow_add]
            congr 1
            omega
      _ ≤ c * 2 ^ (46 - K) :=
            Nat.mul_le_mul_right _ hs.1
    · calc c * 2 ^ (46 - K) < 2 ^ (K + 1) * 2 ^ (46 - K) := by
            have hp : 0 < 2 ^ (46 - K) := Nat.pow_pos (by norm_num)
            exact (Nat.mul_lt_mul_right hp).mpr hs.2
      _ = 2 ^ (46 + 1) := by
            rw [← pow_add]
            congr 1
            omega
  have hprod : f32mul (multiplierF32 Frequency.monthly) (f32round c 1)
      = (c * 2 ^ (23 - K), (K : Int) - 23) := by
    rw [hmul, hfc]
    have hne1 : (2 : Nat) ^ 23 ≠ 0 := by positivity
    have hne2 : c * 2 ^ (23 - K) ≠ 0 := by omega
    unfold f32mul
    rw [if_neg (by simp [hne1, hne2])]
    unfold roundSig
    dsimp only
    have hpow46 : 0 < 2 ^ (46 - K) := Nat.pow_pos (by norm_num)
    rw [hn46, flog2_nat _ (Nat.mul_pos hc hpow46), hlog46]
    have htneg : ¬ (0 : Int) ≤ ((24 : Nat) : Int) - 1 - ((46 : Nat) : Int) := by
      omega
    rw [if_neg htneg]
    have htn : (-(((24 : Nat) : Int) - 1 - ((46 : Nat) : Int))).toNat = 23 := by
      omega
    rw [htn]
    have hsplit : c * 2 ^ (46 - K) = (c * 2 ^ (23 - K)) * 2 ^ 23 := by
      rw [mul_assoc, ← pow_add]
      congr 2
      omega
    rw [hsplit]
    have hone : (1 : Nat) * 2 ^ 23 = 2 ^ 23 := by ring
    rw [hone, rne_mul_pow]
    simp only [Prod.mk.injEq, true_and]
    omega
  unfold monthlyCents
  rw [hprod]
  have hfl : floorPair (c * 2 ^ (23 - K), (K : Int) - 23) = c := by
    unfold floorPair
    by_cases h0 : (0 : Int) ≤ (K : Int) - 23
    · have hKe : K = 23 := by omega
      rw [if_pos h0]
      have : ((K : Int) - 23).toNat = 0 := by omega
      rw [this, hKe]
      simp
    · rw [if_neg h0]
      have : (-((K : Int) - 23)).toNat = 23 - K := by omega
      rw [this]
      exact Nat.mul_div_cancel c (Nat.pow_pos (by norm_num))
  rw [hfl]
  have hle : c ≤ 2 ^ 64 - 1 := by
    have : (2 : Nat) ^ 24 ≤ 2 ^ 64 - 1 := by norm_num
    omega
  exact min_eq_left hle

/-! ## Report aggregation lemmas -/

theorem addTo_lookupD (m : List (String × Nat)) (k : String) (v : Nat) (k2 : String) :
    lookupD (addTo m k v) k2 = lookupD m k2 + (if k2 = k then v else 0) := by
induction m with
| nil =>
  by_cases h : k2 = k <;> simp [addTo, lookupD, h, Ne.symm]
| cons p m ih =>
  by_cases hp : p.1 = k
  · by_cases h : k2 = k
    · simp [addTo, lookupD, hp, h, hp.trans h.symm]
    · have hp2 : ¬ p.1 = k2 := fun hh => h (hh.symm.trans hp)
      have h4 : ¬ k = k2 := fun hh => h hh.symm
      simp [addTo, lookupD, hp, h, hp2, h4]
  · by_cases h2 : p.1 = k2
    · have h3 : ¬ k2 = k := fun hh => hp (h2.trans hh)
      simp [addTo, lookupD, hp, h2, h3]
    · simp [addTo, lookupD, hp, h2, ih]

theorem stepReport_total (a : ReportAcc) (t : Transaction) :
    (stepReport a t).total = a.total
      + ((if t.add_type == AddType.income then toI64 (monthlyT t) else 0)
        - (if t.add_type == AddType.expense then toI64 (monthlyT t) else 0)) := by
obtain ⟨aty, fr, nm, am, cat, acc⟩ := t
cases aty <;> cases cat <;> cases acc <;> simp [stepReport] <;> omega

theorem stepReport_breakdown (a : ReportAcc) (t : Transaction) (c : String) :
    lookupD (stepReport a t).breakdown c = lookupD a.breakdown c
      + (if t.add_type == AddType.expense && t.category == some c then monthlyT t else 0) := by
obtain ⟨aty, fr, nm, am, cat, acc⟩ := t
cases aty
· cases cat <;> cases acc <;> simp [stepReport]
· cases cat with
  | none => cases acc <;> simp [stepReport]
  | some s =>
    cases acc
    all_goals
      simp [stepReport]
      rw [addTo_lookupD]
      by_cases h : c = s
      · simp [h]
      · have h2 : ¬ s = c := fun hh => h hh.symm
        simp [h, h2]

theorem stepReport_other_expenses (a : ReportAcc) (t : Transaction) :
    (stepReport a t).other_expenses = a.other_expenses
      + (if t.add_type == AddType.expense && t.category == none then monthlyT t else 0) := by
obtain ⟨aty, fr, nm, am, cat, acc⟩ := t
cases aty <;> cases cat <;> cases acc <;> simp [stepReport]

theorem stepReport_coverage (a : ReportAcc) (t : Transaction) (c : String) :
    lookupD (stepReport a t).coverage c = lookupD a.coverage c
      + (if t.add_type == AddType.expense && t.account == some c then monthlyT t else 0) := by
obtain ⟨aty, fr, nm, am, cat, acc⟩ := t
cases aty
· cases cat <;> cases acc <;> simp [stepReport]
· cases acc with
  | none => cases cat <;> simp [stepReport]
  | some s =>
    cases cat
    all_goals
      simp [stepReport]
      rw [addTo_lookupD]
      by_cases h : c = s
      · simp [h]
      · have h2 : ¬ s = c := fun hh => h hh.symm
        simp [h, h2]

theorem stepReport_other_alloc (a : ReportAcc) (t : Transaction) :
    (stepReport a t).other_alloc = a.other_alloc
      + (if t.add_type == AddType.expense && t.account == none then monthlyT t else 0) := by
obtain ⟨aty, fr, nm, am, cat, acc⟩ := t
cases aty <;> cases cat <;> cases acc <;> simp [stepReport]

theorem reportFold_total (ts : List Transaction) :
    ∀ a : ReportAcc, (ts.foldl stepReport a).total = a.total
      + (ts.map (fun t =>
          (if t.add_type == AddType.income then toI64 (monthlyT t) else 0)
          - (if t.add_type == AddType.expense then toI64 (monthlyT t) else 0))).sum := by
induction ts with
| nil =>
  intro a
  simp
| cons t ts ih =>
  intro a
  rw [List.foldl_cons, ih, stepReport_total, List.map_cons, List.sum_cons]
  ring

theorem reportFold_breakdown (ts : List Transaction) :
    ∀ (a : ReportAcc) (c : String),
      lookupD ((ts.foldl stepReport a)).breakdown c = lookupD a.breakdown c
        + (ts.map (fun t =>
            if t.add_type == AddType.expense && t.category == some c then monthlyT t else 0)).sum := by
induction ts with
| nil =>
  intro a c
  simp
| cons t ts ih =>
  intro a c
  rw [List.foldl_cons, ih, stepReport_breakdown, List.map_cons, List.sum_cons]
  omega

theorem reportFold_other_expenses (ts : List Transaction) :
    ∀ a : ReportAcc, (ts.foldl stepReport a).other_expenses = a.other_expenses
      + (ts.map (fun t =>
          if t.add_type == AddType.expense && t.category == none then monthlyT t else 0)).sum := by
induction ts with
| nil =>
  intro a
  simp
| cons t ts ih =>
  intro a
  rw [List.foldl_cons, ih, stepReport_other_expenses, List.map_cons, List.sum_cons]
  omega

theorem reportFold_coverage (ts : List Transaction) :
    ∀ (a : ReportAcc) (c : String),
      lookupD ((ts.foldl stepReport a)).coverage c = lookupD a.coverage c
        + (ts.map (fun t =>
            if t.add_type == AddType.expense && t.account == some c then monthlyT t else 0)).sum := by
induction ts with
| nil =>
  intro a c
  simp
| cons t ts ih =>
  intro a c
  rw [List.foldl_cons, ih, stepReport_coverage, List.map_cons, List.sum_cons]
  omega

theorem reportFold_other_alloc (ts : List Transaction) :
    ∀ a : ReportAcc, (ts.foldl stepReport a).other_alloc = a.other_alloc
      + (ts.map (fun t =>
          if t.add_type == AddType.expense && t.account == none then monthlyT t else 0)).sum := by
induction ts with
| nil =>
  intro a
  simp
| cons t ts ih =>
  intro a
  rw [List.foldl_cons, ih, stepReport_other_alloc, List.map_cons, List.sum_cons]
  omega

theorem sum_filter_bool {α : Type} {M : Type} [AddCommMonoid M]
    (ts : List α) (p : α → Bool) (f : α → M) :
    ((ts.filter p).map f).sum = (ts.map (fun t => if p t then f t else 0)).sum := by
induction ts with
| nil => simp
| cons t ts ih =>
  by_cases h : p t <;> simp [List.filter_cons, h, ih]

theorem sum_map_sub {α : Type} (l : List α) (f g : α → Int) :
    (l.map (fun x => f x - g x)).sum = (l.map f).sum - (l.map g).sum := by
induction l with
| nil => simp
| cons t l ih =>
  simp only [List.map_cons, List.sum_cons, ih]
  ring

/-! ## Decimal formatting lemmas -/

theorem natDecChars_lt10 (n : Nat) (h : n < 10) : natDecChars n = [decDigit n] := by
unfold natDecChars
simp only [natDecCharsAux]
rw [if_pos h]

theorem natDecChars_two (n : Nat) (h1 : 10 ≤ n) (h2 : n < 100) :
    natDecChars n = [decDigit (n / 10), decDigit (n % 10)] := by
obtain ⟨m, rfl⟩ : ∃ m, n = m + 1 := ⟨n - 1, by omega⟩
unfold natDecChars
simp only [natDecCharsAux]
rw [if_neg (by omega), if_pos (by omega)]
simp

theorem pad2_cents (m : Nat) (h : m < 100) :
    padTo 2 '0' (natDecChars m) = [decDigit (m / 10), decDigit (m % 10)] := by
by_cases h1 : m < 10
· have h0 : decDigit 0 = '0' := rfl
  rw [natDecChars_lt10 m h1, Nat.div_eq_of_lt h1, Nat.mod_eq_of_lt h1, h0]
  rfl
· rw [natDecChars_two m (by omega) h]
  unfold padTo
  simp

theorem padTo_length (w : Nat) (f : Char) (l : List Char) :
    (padTo w f l).length = max w l.length := by
simp [padTo]
omega

/-! ## Claim theorems -/

/-- C9, counterexample: `Money`'s `Display` pads the dollars to width 4,
so 150 cents renders as `{:>4}.{:0>2}`, i.e. `"   1.50"`, not `"1.50"`
as the claim's example states. -/
theorem c9_counterexample : moneyFmt 150 ≠ "1.50" := by decide

/-- C9, amended: `Money` formatting always produces a fixed two-decimal
string with zero-padded cents and the dollars right-aligned to a minimum
width of 4 with spaces; 150 cents formats as `"   1.50"`, 5 cents as
`"   0.05"`, and 100000 cents as `"1000.00"`. -/
theorem c9_money_format :
    moneyFmt 150 = "   1.50" ∧ moneyFmt 5 = "   0.05" ∧ moneyFmt 100000 = "1000.00"
    ∧ ∀ n : Nat,
        moneyFmtChars n
          = padTo 4 ' ' (natDecChars (n / 100))
              ++ '.' :: [decDigit (n % 100 / 10), decDigit (n % 100 % 10)]
        ∧ (moneyFmtChars n).length = max 4 (natDecChars (n / 100)).length + 3 := by
refine ⟨by decide, by decide, by decide, fun n => ⟨?_, ?_⟩⟩
· unfold moneyFmtChars
  rw [pad2_cents (n % 100) (Nat.mod_lt _ (by norm_num))]
· unfold moneyFmtChars
  rw [pad2_cents (n % 100) (Nat.mod_lt _ (by norm_num))]
  simp [padTo_length]

/-- C4, counterexample: the extrapolation multiplier is applied in 32-bit
float arithmetic, where `1.0 / 3.0` rounds to `11184811 / 2^25 > 1/3`;
for a quarterly amount of 33554432 cents the code yields 11184811 cents,
while multiplying by the claimed exact multiplier `1/3` and truncating
toward zero yields `33554432 / 3 = 11184810`. -/
theorem c4_counterexample : monthlyCents Frequency.quarterly 33554432 ≠ 33554432 / 3 := by
decide

/-- C4, amended: the monthly-equivalent amount is the amount in cents
converted to `f32`, multiplied in `f32` by the multiplier of its
frequency (the `f32` values of 30.0, 21.4, 4.28, 1.0, 1.0/3.0, 1.0/12.0),
and truncated toward zero, not rounded; in particular a yearly amount of
120000 cents scales to 10000 cents, a weekly amount of 10000 cents to
42800 cents, a yearly amount of 119999 cents to 9999 cents (truncation,
not rounding), and with the exact multiplier 1.0 every monthly amount
below `2^24` cents is unchanged. -/
theorem c4_frequency_extrapolation :
    monthlyCents Frequency.yearly 120000 = 10000
    ∧ monthlyCents Frequency.weekly 10000 = 42800
    ∧ monthlyCents Frequency.yearly 119999 = 9999
    ∧ ∀ c : Nat, c < 2 ^ 24 → monthlyCents Frequency.monthly c = c :=
⟨by decide, by decide, by decide, fun c h => monthlyCents_monthly c h⟩

/-- C4, witness for the amended claim's hypothesis. -/
theorem c4_witness : 12345 < 2 ^ 24 ∧ monthlyCents Frequency.monthly 12345 = 12345 :=
⟨by norm_num, c4_frequency_extrapolation.2.2.2 12345 (by norm_num)⟩

/-- C6, counterexample: the total row is parenthesized whenever the total
is not strictly positive (`if total > 0`), so the empty ledger's zero
total renders parenthesized even though it is not negative. -/
theorem c6_counterexample :
    (totalRowChars (reportAcc []).total).head? = some '(' ∧ ¬ (reportAcc []).total < 0 := by
decide

/-- C6, amended: the report's total row is parenthesized if and only if
the signed monthly total is non-positive (zero is also parenthesized),
and the parenthesized display shows the absolute value of the total with
no leading minus sign; an empty ledger produces a report whose total is
zero with empty breakdown and coverage maps, rendering as `"(   0.00)"`. -/
theorem c6_total_row (t : Int) :
    ((totalRowChars t).head? = some '(' ↔ t ≤ 0)
    ∧ totalRowChars t
        = (if 0 < t then ' ' :: (moneyFmtChars t.toNat ++ [' '])
           else '(' :: (moneyFmtChars t.natAbs ++ [')']))
    ∧ reportAcc [] = initReport
    ∧ String.mk (totalRowChars (reportAcc []).total) = "(   0.00)" := by
refine ⟨?_, ?_, rfl, by decide⟩
· have hne : ¬ (some (' ' : Char) = some '(') := by decide
  by_cases h : 0 < t
  · unfold totalRowChars
    rw [if_pos h]
    simp only [List.head?]
    constructor
    · intro hcontra
      exact absurd hcontra hne
    · intro hle
      omega
  · unfold totalRowChars
    rw [if_neg h]
    simp only [List.head?]
    constructor
    · intro _
      omega
    · intro _
      trivial
· by_cases h : 0 < t
  · unfold totalRowChars
    rw [if_pos h, if_pos h]
  · unfold totalRowChars
    rw [if_neg h, if_neg h]
    have he : (-t).toNat = t.natAbs := by omega
    rw [he]

/-- C1: saving a valid ledger (a map, i.e. an entry list with pairwise
distinct keys) and loading it back yields a ledger equal to the original
as a map, and loading any reordering of the saved entries yields the
same map, so the round trip is independent of entry order. -/
theorem c1_save_load_roundtrip (fs : Files) (name : String) (L : Entries)
    (h : NodupKeys L) :
    ∃ fs2, save_ledger fs name L = Except.ok fs2
      ∧ load_ledger fs2 name = Except.ok (loadEntries L)
      ∧ (∀ k, lookupL (loadEntries L) k = lookupL L k)
      ∧ ∀ L2, L.Perm L2 → ∀ k, lookupL (loadEntries L2) k = lookupL L k := by
refine ⟨updateF fs name L, rfl, ?_, fun k => lookupL_loadEntries L h k, ?_⟩
· unfold load_ledger updateF
  simp
· intro L2 hp k
  have h2 : NodupKeys L2 := ((hp.map Prod.fst).nodup_iff).mp h
  rw [lookupL_loadEntries L2 h2 k, ← lookupL_perm L L2 h hp k]

/-- C1, witness at a concrete two-entry ledger. -/
theorem c1_witness :
    NodupKeys sampleLedger
    ∧ ∃ fs2, save_ledger emptyFs "mine" sampleLedger = Except.ok fs2
        ∧ load_ledger fs2 "mine" = Except.ok (loadEntries sampleLedger)
        ∧ (∀ k, lookupL (loadEntries sampleLedger) k = lookupL sampleLedger k)
        ∧ ∀ L2, sampleLedger.Perm L2 →
            ∀ k, lookupL (loadEntries L2) k = lookupL sampleLedger k :=
⟨by decide, c1_save_load_roundtrip emptyFs "mine" sampleLedger (by decide)⟩

/-- C2: adding a transaction whose name is already a key of the current
ledger fails with `NameIsAlreadyTaken` (the `DuplicateName` error), the
store is untouched (no file is written on this path), and re-inserting
the displaced value restores the in-memory map exactly. -/
theorem c2_add_duplicate (fs : Files) (file : Entries) (t val : Transaction)
    (h : fs currentName = some file)
    (hdup : lookupL (loadEntries file) t.name = some val) :
    add fs t = Except.error (Error.NameIsAlreadyTaken val.name)
    ∧ execCmd fs (add fs t) = fs
    ∧ (val.name = t.name →
        ∀ k, lookupL (insertL (insertL (loadEntries file) t.name t) val.name val) k
          = lookupL (loadEntries file) k) := by
have hadd : add fs t = Except.error (Error.NameIsAlreadyTaken val.name) := by
  unfold add load_ledger
  rw [h]
  dsimp only
  rw [hdup]
refine ⟨hadd, ?_, ?_⟩
· unfold execCmd
  rw [hadd]
· intro he k
  rw [he, lookupL_insertL, lookupL_insertL]
  by_cases hk : k = t.name
  · rw [if_pos hk, hk]
    exact hdup.symm
  · rw [if_neg hk, if_neg hk]

/-- C2, witness at a concrete duplicate add. -/
theorem c2_witness :
    sampleFs currentName = some sampleLedger
    ∧ lookupL (loadEntries sampleLedger) tRent2.name = some tRent
    ∧ add sampleFs tRent2 = Except.error (Error.NameIsAlreadyTaken tRent.name)
    ∧ execCmd sampleFs (add sampleFs tRent2) = sampleFs
    ∧ (tRent.name = tRent2.name →
        ∀ k, lookupL (insertL (insertL (loadEntries sampleLedger) tRent2.name tRent2)
              tRent.name tRent) k
          = lookupL (loadEntries sampleLedger) k) := by
refine ⟨by decide, by decide, ?_⟩
have hc := c2_add_duplicate sampleFs sampleLedger tRent2 tRent (by decide) (by decide)
exact hc

/-- C3: removing a name absent from the current ledger succeeds, leaves
the ledger's contents unchanged, still performs a save of the
(unchanged) ledger, and removal is idempotent: removing the same name
again (at the map level and at the command level) yields the same
ledger. -/
theorem c3_remove_idempotent (fs : Files) (file : Entries) (name : String)
    (h : fs currentName = some file)
    (habs : lookupL (loadEntries file) name = none) :
    rm fs name = Except.ok (updateF fs currentName (removeL (loadEntries file) name))
    ∧ (∀ k, lookupL (removeL (loadEntries file) name) k = lookupL (loadEntries file) k)
    ∧ removeL (removeL (loadEntries file) name) name = removeL (loadEntries file) name
    ∧ rm (updateF fs currentName (removeL (loadEntries file) name)) name
        = Except.ok (updateF fs currentName (removeL (loadEntries file) name)) := by
refine ⟨?_, ?_, removeL_removeL _ name, ?_⟩
· unfold rm load_ledger save_ledger
  rw [h]
· intro k
  rw [lookupL_removeL]
  by_cases hk : k = name
  · rw [if_pos hk, hk]
    exact habs.symm
  · rw [if_neg hk]
· have hnd : NodupKeys (removeL (loadEntries file) name) :=
    nodupKeys_removeL _ _ (nodupKeys_loadEntries file)
  have hid : loadEntries (removeL (loadEntries file) name)
      = removeL (loadEntries file) name := loadEntries_id _ hnd
  have hup : (updateF fs currentName (removeL (loadEntries file) name)) currentName
      = some (removeL (loadEntries file) name) := by simp [updateF]
  unfold rm load_ledger save_ledger
  rw [hup]
  dsimp only
  rw [hid, removeL_removeL, updateF_updateF]

/-- C3, witness removing an absent name from a concrete ledger. -/
theorem c3_witness :
    sampleFs currentName = some sampleLedger
    ∧ lookupL (loadEntries sampleLedger) "car" = none
    ∧ rm sampleFs "car"
        = Except.ok (updateF sampleFs currentName (removeL (loadEntries sampleLedger) "car"))
    ∧ (∀ k, lookupL (removeL (loadEntries sampleLedger) "car") k
        = lookupL (loadEntries sampleLedger) k)
    ∧ removeL (removeL (loadEntries sampleLedger) "car") "car"
        = removeL (loadEntries sampleLedger) "car"
    ∧ rm (updateF sampleFs currentName (removeL (loadEntries sampleLedger) "car")) "car"
        = Except.ok (updateF sampleFs currentName (removeL (loadEntries sampleLedger) "car")) := by
refine ⟨by decide, by decide, ?_⟩
have hc := c3_remove_idempotent sampleFs sampleLedger "car" (by decide) (by decide)
exact hc

/-- C7: after `backup`, any mutation of the store that leaves the backup
file intact is undone by `restore`: the current ledger file again decodes
to the pre-mutation current ledger. -/
theorem c7_backup_restore (fs : Files) (file : Entries)
    (h : fs currentName = some file) :
    backup fs = Except.ok (updateF fs backupName (loadEntries file))
    ∧ ∀ fs2 : Files, fs2 backupName = some (loadEntries file) →
        restore fs2 = Except.ok (updateF fs2 currentName (loadEntries file))
        ∧ load_ledger (updateF fs2 currentName (loadEntries file)) currentName
            = Except.ok (loadEntries file) := by
have hid : loadEntries (loadEntries file) = loadEntries file :=
  loadEntries_id _ (nodupKeys_loadEntries file)
refine ⟨?_, fun fs2 h2 => ⟨?_, ?_⟩⟩
· unfold backup save load_ledger save_ledger
  rw [h]
· unfold restore load load_ledger save_ledger
  rw [h2]
  dsimp only
  rw [hid]
· have hup : (updateF fs2 currentName (loadEntries file)) currentName
      = some (loadEntries file) := by simp [updateF]
  unfold load_ledger
  rw [hup]
  dsimp only
  rw [hid]

/-- C7, witness: backup, mutate the current ledger, restore. -/
theorem c7_witness :
    sampleFs currentName = some sampleLedger
    ∧ backup sampleFs
        = Except.ok (updateF sampleFs backupName (loadEntries sampleLedger))
    ∧ (∀ fs2 : Files, fs2 backupName = some (loadEntries sampleLedger) →
        restore fs2 = Except.ok (updateF fs2 currentName (loadEntries sampleLedger))
        ∧ load_ledger (updateF fs2 currentName (loadEntries sampleLedger)) currentName
            = Except.ok (loadEntries sampleLedger)) := by
refine ⟨by decide, ?_⟩
have hc := c7_backup_restore sampleFs sampleLedger (by decide)
exact hc

/-- C5: over any iteration order of any ledger whose monthly amounts fit
in `i64` (the claim's realistic-input proviso), the running total gains
`+monthly` per income and `-monthly` per expense; expenses with a
category (resp. account) accumulate into the breakdown (resp. coverage)
map under it, the others into the `other`/`unallocated` scalars; income
transactions never contribute to breakdown or coverage. -/
theorem c5_report_aggregation (ts : List Transaction)
    (hm : ∀ t ∈ ts, monthlyT t < 2 ^ 63) :
    (reportAcc ts).total
        = ((ts.filter (fun t => t.add_type == AddType.income)).map
            (fun t => (monthlyT t : Int))).sum
          - ((ts.filter (fun t => t.add_type == AddType.expense)).map
            (fun t => (monthlyT t : Int))).sum
    ∧ (∀ c, lookupD (reportAcc ts).breakdown c
        = ((ts.filter (fun t => t.add_type == AddType.expense && t.category == some c)).map
            (fun t => monthlyT t)).sum)
    ∧ (reportAcc ts).other_expenses
        = ((ts.filter (fun t => t.add_type == AddType.expense && t.category == none)).map
            (fun t => monthlyT t)).sum
    ∧ (∀ c, lookupD (reportAcc ts).coverage c
        = ((ts.filter (fun t => t.add_type == AddType.expense && t.account == some c)).map
            (fun t => monthlyT t)).sum)
    ∧ (reportAcc ts).other_alloc
        = ((ts.filter (fun t => t.add_type == AddType.expense && t.account == none)).map
            (fun t => monthlyT t)).sum := by
refine ⟨?_, fun c => ?_, ?_, fun c => ?_, ?_⟩
· unfold reportAcc
  rw [reportFold_total, sum_filter_bool, sum_filter_bool, ← sum_map_sub]
  rw [show initReport.total = 0 from rfl, zero_add]
  refine congrArg List.sum (List.map_congr_left ?_)
  intro t ht
  have hlt := hm t ht
  simp only [toI64, if_pos hlt]
· unfold reportAcc
  rw [reportFold_breakdown, sum_filter_bool]
  rw [show lookupD initReport.breakdown c = 0 from rfl, zero_add]
· unfold reportAcc
  rw [reportFold_other_expenses, sum_filter_bool]
  rw [show initReport.other_expenses = 0 from rfl, zero_add]
· unfold reportAcc
  rw [reportFold_coverage, sum_filter_bool]
  rw [show lookupD initReport.coverage c = 0 from rfl, zero_add]
· unfold reportAcc
  rw [reportFold_other_alloc, sum_filter_bool]
  rw [show initReport.other_alloc = 0 from rfl, zero_add]

/-- C5, witness at a concrete two-transaction ledger. -/
theorem c5_witness :
    (∀ t ∈ [tSalary, tRent], monthlyT t < 2 ^ 63)
    ∧ ((reportAcc [tSalary, tRent]).total
          = (([tSalary, tRent].filter (fun t => t.add_type == AddType.income)).map
              (fun t => (monthlyT t : Int))).sum
            - (([tSalary, tRent].filter (fun t => t.add_type == AddType.expense)).map
              (fun t => (monthlyT t : Int))).sum
      ∧ (∀ c, lookupD (reportAcc [tSalary, tRent]).breakdown c
          = (([tSalary, tRent].filter
                (fun t => t.add_type == AddType.expense && t.category == some c)).map
              (fun t => monthlyT t)).sum)
      ∧ (reportAcc [tSalary, tRent]).other_expenses
          = (([tSalary, tRent].filter
                (fun t => t.add_type == AddType.expense && t.category == none)).map
              (fun t => monthlyT t)).sum
      ∧ (∀ c, lookupD (reportAcc [tSalary, tRent]).coverage c
          = (([tSalary, tRent].filter
                (fun t => t.add_type == AddType.expense && t.account == some c)).map
              (fun t => monthlyT t)).sum)
      ∧ (reportAcc [tSalary, tRent]).other_alloc
          = (([tSalary, tRent].filter
                (fun t => t.add_type == AddType.expense && t.account == none)).map
              (fun t => monthlyT t)).sum) :=
⟨by decide, c5_report_aggregation [tSalary, tRent] (by decide)⟩

/-! ## Parser lemmas -/

theorem tailOrNil_eq_drop (l : List Char) :
    (match l with | [] => ([] : List Char) | _ :: f => f) = l.drop 1 := by
cases l <;> rfl

theorem parseExp_isSome (l : List Char) :
    (parseExp l).isSome
      = (match l with
         | [] => true
         | _ :: r => !(stripSign r).2.isEmpty && (stripSign r).2.all Char.isDigit) := by
cases l with
| nil => rfl
| cons c r =>
  simp only [parseExp]
  by_cases h : (stripSign r).2 ≠ [] ∧ (stripSign r).2.all Char.isDigit
  · rw [if_pos h]
    rcases h with ⟨h1, h2⟩
    cases he : (stripSign r).2 with
    | nil => exact absurd he h1
    | cons a as =>
      rw [he] at h2
      simp [h2]
  · rw [if_neg h]
    push_neg at h
    cases he : (stripSign r).2 with
    | nil => simp [he]
    | cons a as =>
      have h2 := h (by simp [he])
      rw [he] at h2
      simp [h2]

theorem not_isEmpty_iff (l : List Char) : ((!l.isEmpty) = true) = (l ≠ []) := by
cases l <;> simp

theorem parseF64_isSome (s : String) : (parseF64 s).isSome = numericStr s := by
unfold parseF64 numericStr
dsimp only
rw [Bool.eq_iff_iff]
rw [tailOrNil_eq_drop]
generalize (stripSign s.toList).2 = body
generalize body.map charLower = low
by_cases hI : low = "inf".toList
· simp [hI]
by_cases hIn : low = "infinity".toList
· simp [hIn]
by_cases hN : low = "nan".toList
· simp [hI, hIn, hN]
rw [if_neg (not_or.mpr ⟨hI, hIn⟩), if_neg hN]
have e1 : (low == "inf".toList) = false := beq_eq_false_iff_ne.mpr hI
have e2 : (low == "infinity".toList) = false := beq_eq_false_iff_ne.mpr hIn
have e3 : (low == "nan".toList) = false := beq_eq_false_iff_ne.mpr hN
rw [e1, e2, e3]
simp only [Bool.false_or]
generalize body.takeWhile (fun c => !(c == 'e' || c == 'E')) = mant
generalize body.drop mant.length = erest
generalize mant.takeWhile (fun c => !(c == '.')) = ip
generalize (mant.drop ip.length).drop 1 = frac
have hexp := parseExp_isSome erest
by_cases hc : ip.all Char.isDigit ∧ frac.all Char.isDigit ∧ (ip ≠ [] ∨ frac ≠ [])
· rw [if_pos hc]
  rcases hc with ⟨hca, hcb, hcc⟩
  rcases hp : parseExp erest with _ | e
  · rw [hp] at hexp
    constructor
    · intro hcontra
      simp at hcontra
    · intro hcontra
      rw [Bool.and_eq_true, ← hexp] at hcontra
      simp at hcontra
  · rw [hp] at hexp
    constructor
    · intro _
      rw [Bool.and_eq_true, ← hexp]
      refine ⟨?_, rfl⟩
      rw [Bool.and_eq_true, Bool.and_eq_true, Bool.or_eq_true]
      refine ⟨⟨hca, hcb⟩, ?_⟩
      rcases hcc with h | h
      · left
        rw [not_isEmpty_iff]
        exact h
      · right
        rw [not_isEmpty_iff]
        exact h
    · intro _
      dsimp only
      split
      · simp
      · split <;> simp
· rw [if_neg hc]
  simp only [Option.isSome_none, Bool.false_eq_true, false_iff]
  intro hcontra
  rw [Bool.and_eq_true, Bool.and_eq_true, Bool.and_eq_true, Bool.or_eq_true] at hcontra
  rcases hcontra with ⟨⟨⟨ha, hb⟩, hab⟩, _⟩
  refine hc ⟨ha, hb, ?_⟩
  rcases hab with h | h
  · left
    rw [not_isEmpty_iff] at h
    exact h
  · right
    rw [not_isEmpty_iff] at h
    exact h

/-- C8, counterexample: parsing goes through `f64`, so `"0.29"` (whose
numeric value times 100, truncated, is 29) parses to 28 cents: the
nearest `f64` to 0.29 is slightly below it and the `f64` product with
100.0 is slightly below 29. -/
theorem c8_counterexample : moneyFromStr "0.29" = some 28 ∧ ¬ moneyFromStr "0.29" = some 29 := by
constructor
· decide
· decide

/-- C8, amended: `Money` parsing rounds the decimal string to the
nearest `f64`, multiplies by 100.0 in `f64`, and truncates (saturating),
so e.g. `"0.29"` yields 28 cents and `"12.5"` yields 1250; parsing fails
(with the `ParseFloatError`) exactly on the strings that do not match
the float grammar, and succeeds on every numeric input (the grammar also
admits `inf`/`infinity`/`nan`). -/
theorem c8_money_parse :
    (∀ s : String, (moneyFromStr s).isSome = numericStr s)
    ∧ moneyFromStr "0.29" = some 28
    ∧ moneyFromStr "12.5" = some 1250
    ∧ moneyFromStr "abc" = none := by
refine ⟨fun s => ?_, by decide, by decide, by decide⟩
unfold moneyFromStr
rw [← parseF64_isSome s]
cases parseF64 s <;> rfl

/-- C10: every successfully parsed negative value (the parsed sign is
negative) is silently cast to 0 cents rather than reported as an error:
the `as u64` cast saturates negative `f64` values at zero. -/
theorem c10_negative_parse (s : String) (m : F64mag)
    (h : parseF64 s = some (F64.val true m)) : moneyFromStr s = some 0 := by
unfold moneyFromStr
rw [h]
cases m <;> simp [f64mul100, f64ToU64]

/-- C10, witness at the input `"-5"`. -/
theorem c10_witness :
    parseF64 "-5" = some (F64.val true (F64mag.fin 5629499534213120 (-50)))
    ∧ moneyFromStr "-5" = some 0 :=
⟨by decide, c10_negative_parse "-5" (F64mag.fin 5629499534213120 (-50)) (by decide)⟩

end Pfr
